import Mathlib

/-!
Verification of the nupnp TTL-bounded device registry.

The development shallowly embeds the two variants of the program:

* the listing variant (file with `RegisterDevice`, `ListDevices`, the
  slice-backed store, the gob persistence and the adaptive sweep loop), and
* the redirect variant (`main.go`: a map keyed by the raw remote address,
  redirect-or-fallback lookup, cleanup called from the register handler).

Machine time is modelled as an integer number of seconds; Go durations are
integers with the same unit.  Every definition mirrors the corresponding Go
function; the line references in the doc comments point into the sources.
-/

namespace Nupnp

/-- Device mirrors the `Device` struct (listing variant, lines 31-37).
The json tags are modelled separately by `deviceToJson`. -/
structure Device where
  externalAddress : String
  internalAddress : String
  port : Int
  name : String
  added : Int
deriving DecidableEq, Repr

/-- findDevice mirrors `findDevice(ia, ea)` (lines 116-123): scan the slice
in order and return the index of the first device whose internal and
external addresses both match; `none` models the Go `(-1, false)` result. -/
def findDevice : List Device → String → String → Option Nat
  | [], _, _ => none
  | d :: ds, ia, ea =>
    if d.internalAddress == ia && d.externalAddress == ea then some 0
    else (findDevice ds ia ea).map (· + 1)

/-- registerDevice mirrors the store mutation of `RegisterDevice`
(lines 196-213): if `findDevice` locates a live entry for the key, its
`Name`, `Port` and `Added` fields are overwritten in place; otherwise a
fresh entry is appended.  The `none` inner branch is unreachable because
`findDevice` only returns in-bounds indices. -/
def registerDevice (ds : List Device) (ea ia nm : String) (pt now : Int) :
    List Device :=
  match findDevice ds ia ea with
  | some i =>
    match ds[i]? with
    | some d => ds.set i { d with name := nm, port := pt, added := now }
    | none => ds
  | none =>
    ds ++ [{ externalAddress := ea, internalAddress := ia, port := pt,
             name := nm, added := now }]

/-- keyMatch is the identity-key predicate of the spec: a device matches the
key `(ea, ia)` when both address fields agree. -/
def keyMatch (ea ia : String) (d : Device) : Bool :=
  d.externalAddress == ea && d.internalAddress == ia

/-- keyCount counts the live entries holding the key `(ea, ia)`. -/
def keyCount (ds : List Device) (ea ia : String) : Nat :=
  ds.countP (keyMatch ea ia)

/-- NoDupKeys is the uniqueness invariant: at most one live entry per
`(externalAddress, internalAddress)` pair. -/
def NoDupKeys (ds : List Device) : Prop :=
  ∀ ea ia, keyCount ds ea ia ≤ 1

/-- devicesFor mirrors `devicesFor(ea)` (lines 125-133): the append loop
collects, in order, exactly the devices whose external address matches. -/
def devicesFor (ds : List Device) (ea : String) : List Device :=
  ds.filter fun d => d.externalAddress == ea

/-- expired is the eviction test `time.Since(d.Added) > lifetime` of the
cleanup pass, at current time `now`. -/
def expired (now lt : Int) (d : Device) : Bool :=
  lt < now - d.added

/-- removeExpiredGo mirrors the removal pass of `cleanup` (lines 269-277):
indices are visited from high to low, and an expired entry is spliced out
of the slice with `append(d[:i], d[i+1:]...)`.  The second component counts
the deletions (each one is logged by the Go code). -/
def removeExpiredGo (now lt : Int) : List Device → Nat → List Device × Nat
  | ds, 0 => (ds, 0)
  | ds, i + 1 =>
    match ds[i]? with
    | some d =>
      if expired now lt d then
        let r := removeExpiredGo now lt (ds.eraseIdx i) i
        (r.1, r.2 + 1)
      else removeExpiredGo now lt ds i
    | none => removeExpiredGo now lt ds i

/-- removeExpired is the full removal pass: the loop starts at the last
index of the slice. -/
def removeExpired (ds : List Device) (now lt : Int) : List Device × Nat :=
  removeExpiredGo now lt ds ds.length

/-- keep is the survival test of the cleanup pass: a device stays exactly
when it is not expired. -/
def keep (now lt : Int) (d : Device) : Bool :=
  !expired now lt d

theorem removeExpiredGo_append (now lt : Int) (xs : List Device) :
    ∀ ys : List Device,
      removeExpiredGo now lt (xs ++ ys) xs.length =
        (xs.filter (keep now lt) ++ ys, (xs.filter (expired now lt)).length) := by
  induction xs using List.reverseRecOn with
  | nil => intro ys; simp [removeExpiredGo]
  | append_singleton zs d ih =>
    intro ys
    have hassoc : zs ++ [d] ++ ys = zs ++ (d :: ys) := by simp
    have hlen : (zs ++ [d]).length = zs.length + 1 := by simp
    rw [hassoc, hlen]
    have hget : (zs ++ (d :: ys))[zs.length]? = some d := by
      rw [List.getElem?_append_right (Nat.le_refl _)]
      simp
    rw [removeExpiredGo, hget]
    by_cases hd : expired now lt d
    · have herase : (zs ++ (d :: ys)).eraseIdx zs.length = zs ++ ys := by
        rw [List.eraseIdx_append_of_length_le (Nat.le_refl _)]
        simp
      simp only [hd, if_true, herase, ih ys]
      simp [List.filter_append, keep, hd]
    · simp only [hd, if_false, ih (d :: ys)]
      simp [List.filter_append, keep, hd]

/-- removeExpired_eq_filter is the denotation of the removal pass: the
surviving slice is the in-order filter of the non-expired entries, and the
deletion count is the number of expired entries. -/
theorem removeExpired_eq_filter (ds : List Device) (now lt : Int) :
    removeExpired ds now lt =
      (ds.filter (keep now lt), (ds.filter (expired now lt)).length) := by
  have h := removeExpiredGo_append now lt ds []
  simpa [removeExpired] using h

theorem findCond_eq_keyMatch (ia ea : String) (d : Device) :
    (d.internalAddress == ia && d.externalAddress == ea) = keyMatch ea ia d := by
  simp [keyMatch, Bool.and_comm]

theorem findDevice_eq_none (ds : List Device) (ia ea : String) :
    findDevice ds ia ea = none ↔ ∀ d ∈ ds, keyMatch ea ia d = false := by
  induction ds with
  | nil => simp [findDevice]
  | cons hd tl ih =>
    rw [findDevice]
    by_cases h : (hd.internalAddress == ia && hd.externalAddress == ea) = true
    · rw [findCond_eq_keyMatch] at h
      simp [findCond_eq_keyMatch, h]
    · rw [findCond_eq_keyMatch] at h
      rw [findCond_eq_keyMatch, if_neg h, Option.map_eq_none', ih,
        List.forall_mem_cons]
      simp [Bool.eq_false_iff.mpr h]

theorem findDevice_some (ds : List Device) (ia ea : String) (i : Nat)
    (h : findDevice ds ia ea = some i) :
    ∃ d, ds[i]? = some d ∧ keyMatch ea ia d = true := by
  induction ds generalizing i with
  | nil => simp [findDevice] at h
  | cons hd tl ih =>
    rw [findDevice] at h
    by_cases hc : (hd.internalAddress == ia && hd.externalAddress == ea) = true
    · rw [if_pos hc] at h
      cases h
      rw [findCond_eq_keyMatch] at hc
      exact ⟨hd, by simp, hc⟩
    · rw [if_neg hc] at h
      rcases Option.map_eq_some'.mp h with ⟨j, hj, rfl⟩
      rcases ih j hj with ⟨d, hd1, hd2⟩
      exact ⟨d, by simpa using hd1, hd2⟩

theorem countP_set_of_eq (p : Device → Bool) (ds : List Device) (i : Nat)
    (d d' : Device) (hget : ds[i]? = some d) (hp : p d' = p d) :
    (ds.set i d').countP p = ds.countP p := by
  induction ds generalizing i with
  | nil => simp at hget
  | cons hd tl ih =>
    cases i with
    | zero =>
      simp only [List.getElem?_cons_zero, Option.some.injEq] at hget
      subst hget
      simp [List.countP_cons, hp]
    | succ j =>
      simp only [List.getElem?_cons_succ] at hget
      simp [List.countP_cons, ih j hget]

theorem keyCount_pos_of_find (ds : List Device) (ia ea : String) (i : Nat)
    (h : findDevice ds ia ea = some i) : 1 ≤ keyCount ds ea ia := by
  rcases findDevice_some ds ia ea i h with ⟨d, hget, hkey⟩
  have hmem : d ∈ ds := List.getElem?_mem hget
  have : 0 < ds.countP (keyMatch ea ia) :=
    List.countP_pos_iff.mpr ⟨d, hmem, hkey⟩
  exact this

theorem keyCount_zero_of_find_none (ds : List Device) (ia ea : String)
    (h : findDevice ds ia ea = none) : keyCount ds ea ia = 0 :=
  List.countP_eq_zero.mpr (by
    intro d hmem
    exact Bool.eq_false_iff.mp ((findDevice_eq_none ds ia ea).mp h d hmem))

theorem keyMatch_update (ea ia : String) (d : Device) (nm : String)
    (pt now : Int) :
    keyMatch ea ia { d with name := nm, port := pt, added := now } =
      keyMatch ea ia d := by
  simp [keyMatch]

theorem keyCount_register_eq_one (ds : List Device) (ea ia nm : String)
    (pt now : Int) (h : NoDupKeys ds) :
    keyCount (registerDevice ds ea ia nm pt now) ea ia = 1 := by
  cases hf : findDevice ds ia ea with
  | none =>
    have h0 : keyCount ds ea ia = 0 := keyCount_zero_of_find_none ds ia ea hf
    simp only [registerDevice, hf]
    rw [keyCount, List.countP_append]
    rw [keyCount] at h0
    simp [h0, List.countP_cons, keyMatch]
  | some i =>
    rcases findDevice_some ds ia ea i hf with ⟨d, hget, hkey⟩
    have h1 : 1 ≤ keyCount ds ea ia := keyCount_pos_of_find ds ia ea i hf
    have h2 : keyCount ds ea ia ≤ 1 := h ea ia
    simp only [registerDevice, hf, hget]
    have heq :
        keyCount (ds.set i { d with name := nm, port := pt, added := now })
          ea ia = keyCount ds ea ia :=
      countP_set_of_eq _ ds i d _ hget (keyMatch_update ea ia d nm pt now)
    omega

theorem noDupKeys_register (ds : List Device) (ea ia nm : String)
    (pt now : Int) (h : NoDupKeys ds) :
    NoDupKeys (registerDevice ds ea ia nm pt now) := by
  intro ea' ia'
  cases hf : findDevice ds ia ea with
  | some i =>
    rcases findDevice_some ds ia ea i hf with ⟨d, hget, hkey⟩
    simp only [registerDevice, hf, hget]
    have heq :
        keyCount (ds.set i { d with name := nm, port := pt, added := now })
          ea' ia' = keyCount ds ea' ia' :=
      countP_set_of_eq _ ds i d _ hget (keyMatch_update ea' ia' d nm pt now)
    rw [heq]
    exact h ea' ia'
  | none =>
    simp only [registerDevice, hf]
    rw [keyCount, List.countP_append]
    by_cases hk :
        keyMatch ea' ia'
          { externalAddress := ea, internalAddress := ia, port := pt,
            name := nm, added := now } = true
    · have hpair : ea = ea' ∧ ia = ia' := by
        simpa [keyMatch] using hk
      obtain ⟨he, hi⟩ := hpair
      subst he; subst hi
      have h0 : keyCount ds ea ia = 0 := keyCount_zero_of_find_none ds ia ea hf
      rw [keyCount] at h0
      simp [h0, List.countP_cons, hk]
    · have hcnt := h ea' ia'
      rw [keyCount] at hcnt
      simp [List.countP_cons, hk, hcnt]

theorem noDupKeys_filter (ds : List Device) (p : Device → Bool)
    (h : NoDupKeys ds) : NoDupKeys (ds.filter p) := by
  intro ea ia
  exact Nat.le_trans ((List.filter_sublist ds).countP_le _) (h ea ia)

/-- Op is one registry operation: a successful registration (the store
mutation of `RegisterDevice`) or one removal pass of the sweep loop. -/
inductive Op where
  | register (ea ia nm : String) (pt now : Int)
  | sweep (now : Int)
deriving DecidableEq, Repr

/-- applyOp runs one operation on the store, with configured lifetime `lt`. -/
def applyOp (lt : Int) (ds : List Device) : Op → List Device
  | .register ea ia nm pt now => registerDevice ds ea ia nm pt now
  | .sweep now => (removeExpired ds now lt).1

/-- runOps runs a whole operation sequence from the empty store, as `main`
starts from `make([]Device, 0)`. -/
def runOps (lt : Int) (ops : List Op) : List Device :=
  ops.foldl (applyOp lt) []

theorem noDupKeys_applyOp (lt : Int) (ds : List Device) (op : Op)
    (h : NoDupKeys ds) : NoDupKeys (applyOp lt ds op) := by
  cases op with
  | register ea ia nm pt now => exact noDupKeys_register ds ea ia nm pt now h
  | sweep now =>
    show NoDupKeys (removeExpired ds now lt).1
    rw [removeExpired_eq_filter]
    exact noDupKeys_filter ds _ h

/-- C1: on any store satisfying the uniqueness invariant (which every
registration sequence maintains), registering a pair whose key already has a
live entry rewrites exactly that entry's `name` and `port` and resets its
`added` timestamp to the current time, leaving exactly one entry for the
key; registering a pair with no live entry appends a fresh entry whose
`added` is the current time, again leaving exactly one entry for the key. -/
theorem register_upsert_semantics (ds : List Device) (ea ia nm : String)
    (pt now : Int) (h : NoDupKeys ds) :
    (∀ i d, findDevice ds ia ea = some i → ds[i]? = some d →
        registerDevice ds ea ia nm pt now =
          ds.set i { d with name := nm, port := pt, added := now } ∧
        keyCount (registerDevice ds ea ia nm pt now) ea ia = 1) ∧
    (findDevice ds ia ea = none →
        registerDevice ds ea ia nm pt now =
          ds ++ [{ externalAddress := ea, internalAddress := ia, port := pt,
                   name := nm, added := now }] ∧
        keyCount (registerDevice ds ea ia nm pt now) ea ia = 1) := by
  constructor
  · intro i d hfind hget
    refine ⟨?_, keyCount_register_eq_one ds ea ia nm pt now h⟩
    simp [registerDevice, hfind, hget]
  · intro hfind
    refine ⟨?_, keyCount_register_eq_one ds ea ia nm pt now h⟩
    simp [registerDevice, hfind]

/-- Witness for C1: re-registering the key `("203.0.113.5", "10.0.0.9")`
with a new name and port overwrites the single live entry in place. -/
theorem register_upsert_semantics_witness :
    NoDupKeys [⟨"203.0.113.5", "10.0.0.9", 9100, "printer", 3⟩] ∧
    registerDevice [⟨"203.0.113.5", "10.0.0.9", 9100, "printer", 3⟩]
        "203.0.113.5" "10.0.0.9" "printer-v2" 0 7 =
      [⟨"203.0.113.5", "10.0.0.9", 0, "printer-v2", 7⟩] ∧
    keyCount
        (registerDevice [⟨"203.0.113.5", "10.0.0.9", 9100, "printer", 3⟩]
          "203.0.113.5" "10.0.0.9" "printer-v2" 0 7)
        "203.0.113.5" "10.0.0.9" = 1 := by
  have hnd : NoDupKeys [⟨"203.0.113.5", "10.0.0.9", 9100, "printer", 3⟩] := by
    intro ea ia
    rw [keyCount, List.countP_cons]
    split <;> simp
  have h :=
    (register_upsert_semantics
        [⟨"203.0.113.5", "10.0.0.9", 9100, "printer", 3⟩]
        "203.0.113.5" "10.0.0.9" "printer-v2" 0 7 hnd).1
      0 ⟨"203.0.113.5", "10.0.0.9", 9100, "printer", 3⟩ (by decide) (by decide)
  exact ⟨hnd, by simpa using h.1, h.2⟩

/-- C2: every sequence of register and sweep operations, run from the empty
store, yields a store with at most one live entry per
`(externalAddress, internalAddress)` key. -/
theorem registry_no_duplicate_keys (lt : Int) (ops : List Op) :
    NoDupKeys (runOps lt ops) := by
  suffices h : ∀ ds, NoDupKeys ds → NoDupKeys (ops.foldl (applyOp lt) ds) by
    refine h [] ?_
    intro ea ia
    simp [keyCount]
  induction ops with
  | nil => intro ds h; exact h
  | cons op rest ih =>
    intro ds h
    exact ih (applyOp lt ds op) (noDupKeys_applyOp lt ds op h)

/-- C3: one removal pass of the sweep deletes exactly the entries whose age
strictly exceeds the lifetime — the surviving slice is the in-order filter
of the entries with `now - added ≤ lt`, every surviving entry is within the
lifetime, every non-expired entry survives — and the reported deletion
count is the number of expired entries. -/
theorem removeExpired_exactness (ds : List Device) (now lt : Int) :
    (removeExpired ds now lt).1 =
      ds.filter (fun d => decide (now - d.added ≤ lt)) ∧
    (∀ d ∈ (removeExpired ds now lt).1, now - d.added ≤ lt) ∧
    (∀ d ∈ ds, now - d.added ≤ lt → d ∈ (removeExpired ds now lt).1) ∧
    (removeExpired ds now lt).2 =
      (ds.filter fun d => decide (lt < now - d.added)).length := by
  have hfe := removeExpired_eq_filter ds now lt
  have hkeep : keep now lt = fun d => decide (now - d.added ≤ lt) := by
    funext d
    simp only [keep, expired]
    by_cases h : lt < now - d.added
    · have h2 : ¬ now - d.added ≤ lt := by omega
      simp [h, h2]
    · have h2 : now - d.added ≤ lt := by omega
      simp [h, h2]
  have hexp : expired now lt = fun d => decide (lt < now - d.added) := by
    funext d
    simp [expired]
  refine ⟨?_, ?_, ?_, ?_⟩
  · rw [hfe, hkeep]
  · intro d hd
    rw [hfe, hkeep] at hd
    exact of_decide_eq_true (List.mem_filter.mp hd).2
  · intro d hd hage
    rw [hfe, hkeep]
    exact List.mem_filter.mpr ⟨hd, decide_eq_true hage⟩
  · rw [hfe, hexp]

/-- C9: the sweep removal pass only removes entries — the surviving slice
is a sublist of the original one, so every survivor keeps exactly the field
values it had before and the survivors keep their relative order. -/
theorem removeExpired_frame (ds : List Device) (now lt : Int) :
    List.Sublist (removeExpired ds now lt).1 ds ∧
    ∀ d ∈ (removeExpired ds now lt).1, d ∈ ds := by
  have hfe := removeExpired_eq_filter ds now lt
  constructor
  · rw [hfe]
    exact List.filter_sublist ds
  · intro d hd
    rw [hfe] at hd
    exact (List.mem_filter.mp hd).1

/-- Jval models a JSON value appearing in the listing output: a string, an
integer, or a rendered timestamp. -/
inductive Jval where
  | jstr (s : String)
  | jint (n : Int)
  | jtime (t : Int)
deriving DecidableEq, Repr

/-- deviceToJson mirrors the json struct tags of `Device` (lines 31-37) as
interpreted by Go encoding/json: `ExternalAddress` carries the tag that
always omits the field, `InternalAddress` is emitted as `internaladdress`,
`Port` carries `omitempty` and is dropped exactly when it equals the zero
int, `Name` is emitted as `name` and `Added` as `added`, in struct-field
order. -/
def deviceToJson (d : Device) : List (String × Jval) :=
  [("internaladdress", Jval.jstr d.internalAddress)] ++
    (if d.port == 0 then [] else [("port", Jval.jint d.port)]) ++
    [("name", Jval.jstr d.name), ("added", Jval.jtime d.added)]

/-- listDevices mirrors the success path of `ListDevices` (lines 246-253):
the devices sharing the caller's external address are serialized, in store
order, as a JSON array. -/
def listDevices (ds : List Device) (ea : String) :
    List (List (String × Jval)) :=
  (devicesFor ds ea).map deviceToJson

/-- C7: the listing-mode lookup returns the serializations of exactly the
live entries whose external address equals the queried one; every emitted
object carries the fields internaladdress, optionally port, name and added,
never the external address; and an unmatched query yields the empty array
rather than a failure. -/
theorem listDevices_exactness (ds : List Device) (ea : String) :
    listDevices ds ea =
      (ds.filter fun d => d.externalAddress == ea).map deviceToJson ∧
    (∀ d, d ∈ devicesFor ds ea ↔ d ∈ ds ∧ d.externalAddress = ea) ∧
    (∀ o ∈ listDevices ds ea,
        (o.map Prod.fst = ["internaladdress", "name", "added"] ∨
         o.map Prod.fst = ["internaladdress", "port", "name", "added"]) ∧
        "externaladdress" ∉ o.map Prod.fst ∧
        "ExternalAddress" ∉ o.map Prod.fst) ∧
    ((∀ d ∈ ds, d.externalAddress ≠ ea) → listDevices ds ea = []) := by
  refine ⟨rfl, ?_, ?_, ?_⟩
  · intro d
    simp [devicesFor, List.mem_filter]
  · intro o ho
    rcases List.mem_map.mp ho with ⟨d, hd, rfl⟩
    by_cases hp : d.port == 0
    · constructor
      · left
        simp [deviceToJson, hp]
      · constructor <;> simp [deviceToJson, hp]
    · constructor
      · right
        simp [deviceToJson, hp]
      · constructor <;> simp [deviceToJson, hp]
  · intro hnone
    have hfil : ds.filter (fun d => d.externalAddress == ea) = [] := by
      rw [List.filter_eq_nil_iff]
      intro d hd
      simpa using hnone d hd
    simp [listDevices, devicesFor, hfil]

/-- Witness for C7: a store whose single entry belongs to another external
address produces the empty JSON array for the queried one. -/
theorem listDevices_exactness_witness :
    (∀ d ∈ [Device.mk "203.0.113.5" "10.0.0.9" 0 "printer" 3],
        d.externalAddress ≠ "198.51.100.7") ∧
    listDevices [Device.mk "203.0.113.5" "10.0.0.9" 0 "printer" 3]
        "198.51.100.7" = [] := by
  refine ⟨by decide, ?_⟩
  exact
    (listDevices_exactness [Device.mk "203.0.113.5" "10.0.0.9" 0 "printer" 3]
        "198.51.100.7").2.2.2 (by decide)

/-- C10: a registered port equal to 0 is serialized with no port field at
all — indistinguishable from an unspecified port — while any other port
value is emitted as a port field holding that value. -/
theorem port_zero_omitted (d : Device) :
    (d.port = 0 → deviceToJson d =
      [("internaladdress", Jval.jstr d.internalAddress),
       ("name", Jval.jstr d.name), ("added", Jval.jtime d.added)]) ∧
    (d.port ≠ 0 → deviceToJson d =
      [("internaladdress", Jval.jstr d.internalAddress),
       ("port", Jval.jint d.port),
       ("name", Jval.jstr d.name), ("added", Jval.jtime d.added)]) ∧
    (("port" ∈ (deviceToJson d).map Prod.fst) ↔ d.port ≠ 0) := by
  by_cases hp : d.port = 0
  · refine ⟨fun _ => by simp [deviceToJson, hp], fun hc => absurd hp hc, ?_⟩
    simp [deviceToJson, hp]
  · refine ⟨fun hc => absurd hc hp, fun _ => by simp [deviceToJson, hp], ?_⟩
    simp [deviceToJson, hp]

/-- Witness for C10: the port-9100 entry carries a port field, the port-0
re-registration of the scenario in the spec does not. -/
theorem port_zero_omitted_witness :
    deviceToJson (Device.mk "203.0.113.5" "10.0.0.9" 9100 "printer" 3) =
      [("internaladdress", Jval.jstr "10.0.0.9"),
       ("port", Jval.jint 9100),
       ("name", Jval.jstr "printer"), ("added", Jval.jtime 3)] ∧
    deviceToJson (Device.mk "203.0.113.5" "10.0.0.9" 0 "printer-v2" 7) =
      [("internaladdress", Jval.jstr "10.0.0.9"),
       ("name", Jval.jstr "printer-v2"), ("added", Jval.jtime 7)] := by
  constructor
  · exact
      (port_zero_omitted
          (Device.mk "203.0.113.5" "10.0.0.9" 9100 "printer" 3)).2.1
        (by decide)
  · exact
      (port_zero_omitted
          (Device.mk "203.0.113.5" "10.0.0.9" 0 "printer-v2" 7)).1 rfl

/-- Tok is one token of the persisted stream; it abstracts the gob wire
format at the granularity of encoded values: a length, an integer, a
string. -/
inductive Tok where
  | tnat (k : Nat)
  | tint (x : Int)
  | tstr (s : String)
deriving DecidableEq, Repr

/-- encodeDevice lays out the five fields of a device in struct order, as
the gob encoding of one `Device` value does. -/
def encodeDevice (d : Device) : List Tok :=
  [Tok.tstr d.externalAddress, Tok.tstr d.internalAddress, Tok.tint d.port,
   Tok.tstr d.name, Tok.tint d.added]

/-- encodeDevices is the stream written for the whole store: a
length-prefixed sequence of encoded devices, the gob encoding of a
`[]Device` slice. -/
def encodeDevices (ds : List Device) : List Tok :=
  Tok.tnat ds.length :: (ds.map encodeDevice).flatten

/-- decodeDevice reads back one device, failing on a token of the wrong
shape or a truncated stream. -/
def decodeDevice : List Tok → Option (Device × List Tok)
  | Tok.tstr ea :: Tok.tstr ia :: Tok.tint pt :: Tok.tstr nm ::
      Tok.tint ad :: rest =>
    some (⟨ea, ia, pt, nm, ad⟩, rest)
  | _ => none

/-- decodeDeviceList reads back a given number of consecutive devices. -/
def decodeDeviceList : Nat → List Tok → Option (List Device × List Tok)
  | 0, rest => some ([], rest)
  | k + 1, toks =>
    match decodeDevice toks with
    | none => none
    | some (d, rest) =>
      match decodeDeviceList k rest with
      | none => none
      | some (ds, rest2) => some (d :: ds, rest2)

/-- decodeDevices is the decoding half of the codec: a length prefix
followed by that many devices, mirroring what `gob.Decoder.Decode` accepts
for a `[]Device` value. -/
def decodeDevices (toks : List Tok) : Option (List Device) :=
  match toks with
  | Tok.tnat k :: rest =>
    match decodeDeviceList k rest with
    | some (ds, _) => some ds
    | none => none
  | _ => none

/-- saveDevices models the contents written by `saveDevices`
(lines 90-101): the encoded snapshot of the store.  Failures of the file
creation itself are I/O effects outside the model. -/
def saveDevices (ds : List Device) : List Tok :=
  encodeDevices ds

/-- loadDevices mirrors `loadDevices` (lines 103-114) over an abstract
file: opening a missing file (`none`) fails as `os.Open` does, and a
malformed existing file fails to decode. -/
def loadDevices (file : Option (List Tok)) : Except String (List Device) :=
  match file with
  | none => Except.error "open"
  | some toks =>
    match decodeDevices toks with
    | some ds => Except.ok ds
    | none => Except.error "decode"

/-- StartupResult is what the process does after the restore branch of
`main`: run with a store, or die in `log.Fatal`. -/
inductive StartupResult where
  | run (ds : List Device)
  | fatal
deriving DecidableEq, Repr

/-- startupDevices mirrors the restore branch of `main` (lines 45-53):
when no file exists at the dump path (an empty path is reported by
`os.Stat` the same way) the store starts empty with no error; otherwise
the dump is loaded and a load error is fatal. -/
def startupDevices (file : Option (List Tok)) : StartupResult :=
  match file with
  | none => StartupResult.run []
  | some toks =>
    match loadDevices (some toks) with
    | Except.ok ds => StartupResult.run ds
    | Except.error _ => StartupResult.fatal

theorem decodeDevice_encode (d : Device) (rest : List Tok) :
    decodeDevice (encodeDevice d ++ rest) = some (d, rest) := by
  simp [encodeDevice, decodeDevice]

theorem decodeDeviceList_encode (ds : List Device) (rest : List Tok) :
    decodeDeviceList ds.length ((ds.map encodeDevice).flatten ++ rest) =
      some (ds, rest) := by
  induction ds generalizing rest with
  | nil => simp [decodeDeviceList]
  | cons d tl ih =>
    show decodeDeviceList (tl.length + 1)
        ((encodeDevice d ++ (tl.map encodeDevice).flatten) ++ rest) = _
    rw [List.append_assoc, decodeDeviceList, decodeDevice_encode]
    simp [ih rest]

/-- C4: loading the saved snapshot of any non-empty store restores the
store field-for-field, timestamps and external addresses included. -/
theorem persistence_round_trip (ds : List Device) (_h : ds ≠ []) :
    loadDevices (some (saveDevices ds)) = Except.ok ds := by
  have hdec := decodeDeviceList_encode ds []
  rw [List.append_nil] at hdec
  simp [loadDevices, saveDevices, encodeDevices, decodeDevices, hdec]

/-- Witness for C4: a concrete one-entry store survives the round trip. -/
theorem persistence_round_trip_witness :
    [Device.mk "203.0.113.5" "10.0.0.9" 9100 "printer" 3] ≠
      ([] : List Device) ∧
    loadDevices
        (some (saveDevices
          [Device.mk "203.0.113.5" "10.0.0.9" 9100 "printer" 3])) =
      Except.ok [Device.mk "203.0.113.5" "10.0.0.9" 9100 "printer" 3] := by
  refine ⟨by simp, ?_⟩
  exact persistence_round_trip
    [Device.mk "203.0.113.5" "10.0.0.9" 9100 "printer" 3] (by simp)

/-- C5: startup with no file at the dump path runs with the empty store and
no error, while an existing but malformed file makes the load return an
error and startup refuse to run. -/
theorem load_missing_fresh_corrupt_fatal (toks : List Tok) :
    startupDevices none = StartupResult.run [] ∧
    (decodeDevices toks = none →
      loadDevices (some toks) = Except.error "decode" ∧
      startupDevices (some toks) = StartupResult.fatal) := by
  refine ⟨rfl, ?_⟩
  intro h
  constructor
  · simp [loadDevices, h]
  · simp [startupDevices, loadDevices, h]

/-- Witness for C5: a stream that is not a length-prefixed device list is
rejected and startup dies instead of running on it. -/
theorem load_missing_fresh_corrupt_fatal_witness :
    startupDevices none = StartupResult.run [] ∧
    decodeDevices [Tok.tstr "garbage"] = none ∧
    loadDevices (some [Tok.tstr "garbage"]) = Except.error "decode" ∧
    startupDevices (some [Tok.tstr "garbage"]) = StartupResult.fatal := by
  have h := load_missing_fresh_corrupt_fatal [Tok.tstr "garbage"]
  have hdec : decodeDevices [Tok.tstr "garbage"] = none := by decide
  exact ⟨h.1, hdec, (h.2 hdec).1, (h.2 hdec).2⟩

end Nupnp

namespace Redirect

/-- RDevice mirrors the `device` struct of `main.go` (lines 20-25). -/
structure RDevice where
  id : String
  name : String
  address : String
  added : Int
deriving DecidableEq, Repr

/-- mapInsert models the Go map assignment `devices.d[ra] = ...`: the
binding is replaced in place when the key is present, added otherwise. -/
def mapInsert : List (String × RDevice) → String → RDevice →
    List (String × RDevice)
  | [], k, v => [(k, v)]
  | (k1, v1) :: m, k, v =>
    if k1 == k then (k, v) :: m else (k1, v1) :: mapInsert m k v

/-- mapLookup models the Go map lookup `d, ok := devices.d[ra]`. -/
def mapLookup : List (String × RDevice) → String → Option RDevice
  | [], _ => none
  | (k1, v1) :: m, k => if k1 == k then some v1 else mapLookup m k

/-- rcleanup mirrors `cleanup` of `main.go` (lines 69-75): every binding
with `time.Since(d.added) > lifetime` is deleted from the map. -/
def rcleanup (m : List (String × RDevice)) (now lt : Int) :
    List (String × RDevice) :=
  m.filter fun kv => !decide (lt < now - kv.2.added)

/-- RReg is one register request of `main.go` (lines 30-48): the remote
address, the query parameters and the request time. -/
structure RReg where
  remoteAddr : String
  id : String
  name : String
  address : String
  now : Int
deriving DecidableEq, Repr

/-- storedDevice is the value the register handler stores: the address
parameter gets the scheme prefix, `added` is the request time. -/
def storedDevice (r : RReg) : RDevice :=
  { id := r.id, name := r.name, address := "http://" ++ r.address,
    added := r.now }

/-- applyReg is the whole register handler's effect on the map
(`main.go` lines 30-48): store the device under the raw remote address,
then run `cleanup` at the request time. -/
def applyReg (lt : Int) (m : List (String × RDevice)) (r : RReg) :
    List (String × RDevice) :=
  rcleanup (mapInsert m r.remoteAddr (storedDevice r)) r.now lt

/-- runRegs replays a sequence of register requests from the empty map
(`devices.d = make(map[string]*device)`). -/
def runRegs (lt : Int) (rs : List RReg) : List (String × RDevice) :=
  rs.foldl (applyReg lt) []

/-- redirectTarget mirrors the root handler of `main.go` (lines 51-61):
redirect to the stored address for the requester's remote address, or to
the configured fallback when there is none. -/
def redirectTarget (m : List (String × RDevice)) (ra fb : String) : String :=
  match mapLookup m ra with
  | some d => d.address
  | none => fb

theorem mapLookup_insert_self (m : List (String × RDevice)) (k : String)
    (v : RDevice) : mapLookup (mapInsert m k v) k = some v := by
  induction m with
  | nil => simp [mapInsert, mapLookup]
  | cons kv m ih =>
    obtain ⟨k1, v1⟩ := kv
    by_cases h : k1 == k
    · simp [mapInsert, mapLookup, h]
    · simp [mapInsert, mapLookup, h, ih]

theorem mapLookup_insert_ne (m : List (String × RDevice)) (k1 k : String)
    (v : RDevice) (h : k1 ≠ k) :
    mapLookup (mapInsert m k1 v) k = mapLookup m k := by
  induction m with
  | nil => simp [mapInsert, mapLookup, h]
  | cons kv m ih =>
    obtain ⟨k2, v2⟩ := kv
    by_cases h2 : k2 == k1
    · have h2' : k2 = k1 := by simpa using h2
      subst h2'
      simp [mapInsert, mapLookup, h, fun hc => h (by simpa using hc)]
    · simp only [mapInsert, h2, if_false]
      by_cases h3 : k2 == k
      · simp [mapLookup, h3]
      · simp [mapLookup, h3, ih]

theorem mapLookup_filter_some (m : List (String × RDevice)) (k : String)
    (v : RDevice) (p : String × RDevice → Bool)
    (hl : mapLookup m k = some v) (hp : p (k, v) = true) :
    mapLookup (m.filter p) k = some v := by
  induction m with
  | nil => simp [mapLookup] at hl
  | cons kv m ih =>
    obtain ⟨k1, v1⟩ := kv
    by_cases h : k1 == k
    · have hk : k1 = k := by simpa using h
      subst hk
      rw [mapLookup, if_pos (by simp)] at hl
      cases hl
      rw [List.filter_cons, if_pos hp, mapLookup, if_pos (by simp)]
    · rw [mapLookup, if_neg (by simpa using h)] at hl
      rw [List.filter_cons]
      by_cases hq : p (k1, v1) = true
      · rw [if_pos hq, mapLookup, if_neg (by simpa using h)]
        exact ih hl
      · rw [if_neg hq]
        exact ih hl

theorem mapLookup_filter_none (m : List (String × RDevice)) (k : String)
    (p : String × RDevice → Bool) (hl : mapLookup m k = none) :
    mapLookup (m.filter p) k = none := by
  induction m with
  | nil => simp [mapLookup]
  | cons kv m ih =>
    obtain ⟨k1, v1⟩ := kv
    by_cases h : k1 == k
    · rw [mapLookup, if_pos h] at hl
      cases hl
    · rw [mapLookup, if_neg h] at hl
      rw [List.filter_cons]
      by_cases hq : p (k1, v1) = true
      · rw [if_pos hq, mapLookup, if_neg h]
        exact ih hl
      · rw [if_neg hq]
        exact ih hl

theorem lookup_applyReg_self (lt : Int) (m : List (String × RDevice))
    (r : RReg) (hlt : 0 ≤ lt) :
    mapLookup (applyReg lt m r) r.remoteAddr = some (storedDevice r) := by
  apply mapLookup_filter_some
  · exact mapLookup_insert_self m r.remoteAddr (storedDevice r)
  · simp only [storedDevice]
    simp
    omega

theorem lookup_applyReg_other (lt : Int) (m : List (String × RDevice))
    (ra : String) (v : RDevice) (q : RReg) (hne : q.remoteAddr ≠ ra)
    (hfresh : q.now - v.added ≤ lt) (hl : mapLookup m ra = some v) :
    mapLookup (applyReg lt m q) ra = some v := by
  apply mapLookup_filter_some
  · rw [mapLookup_insert_ne m q.remoteAddr ra (storedDevice q) hne]
    exact hl
  · simp
    omega

theorem lookup_applyReg_none (lt : Int) (m : List (String × RDevice))
    (ra : String) (q : RReg) (hne : q.remoteAddr ≠ ra)
    (hl : mapLookup m ra = none) :
    mapLookup (applyReg lt m q) ra = none := by
  apply mapLookup_filter_none
  rw [mapLookup_insert_ne m q.remoteAddr ra (storedDevice q) hne]
  exact hl

theorem lookup_foldl_some (lt : Int) (ra : String) (v : RDevice) :
    ∀ (post : List RReg) (m : List (String × RDevice)),
      mapLookup m ra = some v →
      (∀ q ∈ post, q.remoteAddr ≠ ra) →
      (∀ q ∈ post, q.now - v.added ≤ lt) →
      mapLookup (post.foldl (applyReg lt) m) ra = some v := by
  intro post
  induction post with
  | nil => intro m hl _ _; exact hl
  | cons q rest ih =>
    intro m hl hne hfresh
    rw [List.foldl_cons]
    exact ih (applyReg lt m q)
      (lookup_applyReg_other lt m ra v q (hne q (by simp))
        (hfresh q (by simp)) hl)
      (fun p hp => hne p (by simp [hp]))
      (fun p hp => hfresh p (by simp [hp]))

theorem lookup_foldl_none (lt : Int) (ra : String) :
    ∀ (rs : List RReg) (m : List (String × RDevice)),
      mapLookup m ra = none →
      (∀ q ∈ rs, q.remoteAddr ≠ ra) →
      mapLookup (rs.foldl (applyReg lt) m) ra = none := by
  intro rs
  induction rs with
  | nil => intro m hl _; exact hl
  | cons q rest ih =>
    intro m hl hne
    rw [List.foldl_cons]
    exact ih (applyReg lt m q)
      (lookup_applyReg_none lt m ra q (hne q (by simp)) hl)
      (fun p hp => hne p (by simp [hp]))

/-- C8: in redirect mode, a lookup from an external address whose latest
registration has not expired (every later request time is within the
lifetime of it) redirects to the address stored by that most recent
registration; a lookup from an address that never registered gets the
configured fallback. -/
theorem redirect_resolution (lt : Int) (ra fb : String) :
    (∀ (pre post : List RReg) (r : RReg),
        r.remoteAddr = ra → 0 ≤ lt →
        (∀ q ∈ post, q.remoteAddr ≠ ra) →
        (∀ q ∈ post, q.now - r.now ≤ lt) →
        redirectTarget (runRegs lt (pre ++ r :: post)) ra fb =
          "http://" ++ r.address) ∧
    (∀ rs : List RReg, (∀ q ∈ rs, q.remoteAddr ≠ ra) →
        redirectTarget (runRegs lt rs) ra fb = fb) := by
  constructor
  · intro pre post r hra hlt hne hfresh
    have hrun : runRegs lt (pre ++ r :: post) =
        post.foldl (applyReg lt) (applyReg lt (runRegs lt pre) r) := by
      rw [runRegs, List.foldl_append, List.foldl_cons]
      rfl
    have hself :
        mapLookup (applyReg lt (runRegs lt pre) r) ra =
          some (storedDevice r) := by
      rw [← hra]
      exact lookup_applyReg_self lt (runRegs lt pre) r hlt
    have hfinal :
        mapLookup (runRegs lt (pre ++ r :: post)) ra =
          some (storedDevice r) := by
      rw [hrun]
      exact lookup_foldl_some lt ra (storedDevice r) post _ hself hne hfresh
    rw [redirectTarget, hfinal]
    rfl
  · intro rs hne
    have hfinal : mapLookup (runRegs lt rs) ra = none := by
      rw [runRegs]
      exact lookup_foldl_none lt ra rs [] rfl hne
    rw [redirectTarget, hfinal]

/-- Witness for C8: one registration from a remote address is resolved back
to its stored target, and a never-registered address gets the fallback. -/
theorem redirect_resolution_witness :
    redirectTarget
        (runRegs 3600
          [RReg.mk "198.51.100.7:4242" "id1" "tv" "192.168.1.50" 100])
        "198.51.100.7:4242" "http://example.org" =
      "http://" ++ "192.168.1.50" ∧
    redirectTarget (runRegs 3600 []) "198.51.100.7:4242"
        "http://example.org" = "http://example.org" := by
  constructor
  · exact
      (redirect_resolution 3600 "198.51.100.7:4242" "http://example.org").1
        [] [] (RReg.mk "198.51.100.7:4242" "id1" "tv" "192.168.1.50" 100)
        rfl (by decide) (by simp) (by simp)
  · exact
      (redirect_resolution 3600 "198.51.100.7:4242" "http://example.org").2
        [] (by simp)

end Redirect

namespace Nupnp

/-- firstEvent mirrors the wake-time scan of the sweep loop
(lines 258-265): start from the current time and lower towards any earlier
`Added` timestamp (`firstEvent.After(d.Added)` is a strict comparison). -/
def firstEvent (ds : List Device) (now : Int) : Int :=
  ds.foldl (fun fe d => if d.added < fe then d.added else fe) now

/-- sweepStep is one iteration of `cleanup` (lines 256-279) in an idealized
zero-processing-time model: compute the wake instant
`firstEvent + lifetime + 1s`, sleep until it — a sleep into the past
returns immediately — and run the removal pass at the wake instant.  The
state is the store paired with the current time. -/
def sweepStep (lt : Int) (s : List Device × Int) : List Device × Int :=
  ((removeExpired s.1 (max s.2 (firstEvent s.1 s.2 + lt + 1)) lt).1,
   max s.2 (firstEvent s.1 s.2 + lt + 1))

/-- sweepIter iterates the sweep loop `n` times. -/
def sweepIter (lt : Int) (s : List Device × Int) : Nat → List Device × Int
  | 0 => s
  | n + 1 => sweepIter lt (sweepStep lt s) n

theorem firstEvent_cons (d : Device) (tl : List Device) (now : Int) :
    firstEvent (d :: tl) now =
      firstEvent tl (if d.added < now then d.added else now) := by
  rw [firstEvent, firstEvent, List.foldl_cons]

theorem firstEvent_le (ds : List Device) :
    ∀ now : Int, firstEvent ds now ≤ now := by
  induction ds with
  | nil => intro now; exact le_refl now
  | cons d tl ih =>
    intro now
    rw [firstEvent_cons]
    refine le_trans (ih _) ?_
    split <;> omega

theorem firstEvent_le_added (ds : List Device) :
    ∀ (now : Int) (e : Device), e ∈ ds → firstEvent ds now ≤ e.added := by
  induction ds with
  | nil => intro now e h; cases h
  | cons d tl ih =>
    intro now e h
    rcases List.mem_cons.mp h with rfl | h2
    · rw [firstEvent_cons]
      refine le_trans (firstEvent_le tl _) ?_
      split <;> omega
    · rw [firstEvent_cons]
      exact ih _ e h2

theorem firstEvent_cases (ds : List Device) :
    ∀ now : Int,
      firstEvent ds now = now ∨ ∃ d ∈ ds, firstEvent ds now = d.added := by
  induction ds with
  | nil => intro now; left; rfl
  | cons d tl ih =>
    intro now
    rw [firstEvent_cons]
    rcases ih (if d.added < now then d.added else now) with h | ⟨d2, hmem, heq⟩
    · by_cases hc : d.added < now
      · right
        refine ⟨d, List.mem_cons_self d tl, ?_⟩
        rw [h, if_pos hc]
      · left
        rw [h, if_neg hc]
    · right
      exact ⟨d2, List.mem_cons_of_mem d hmem, heq⟩

theorem sweepIter_time_mono (lt : Int) :
    ∀ (n : Nat) (s : List Device × Int), s.2 ≤ (sweepIter lt s n).2 := by
  intro n
  induction n with
  | zero => intro s; exact le_refl _
  | succ m ih =>
    intro s
    refine le_trans ?_ (ih (sweepStep lt s))
    exact le_max_left _ _

theorem sweepIter_keeps_live (lt : Int) (e : Device) :
    ∀ (n : Nat) (ds : List Device) (t : Int), e ∈ ds →
      (sweepIter lt (ds, t) n).2 ≤ e.added + lt →
      e ∈ (sweepIter lt (ds, t) n).1 := by
  intro n
  induction n with
  | zero => intro ds t hmem _; exact hmem
  | succ m ih =>
    intro ds t hmem hle
    have hunfold : sweepIter lt (ds, t) (m + 1) =
        sweepIter lt (sweepStep lt (ds, t)) m := rfl
    have hstep_le : (sweepStep lt (ds, t)).2 ≤ e.added + lt := by
      refine le_trans ?_ hle
      rw [hunfold]
      exact sweepIter_time_mono lt m (sweepStep lt (ds, t))
    have hkeep : e ∈ (sweepStep lt (ds, t)).1 := by
      show e ∈ (removeExpired ds (max t (firstEvent ds t + lt + 1)) lt).1
      rw [removeExpired_eq_filter]
      refine List.mem_filter.mpr ⟨hmem, ?_⟩
      have hb : max t (firstEvent ds t + lt + 1) ≤ e.added + lt := hstep_le
      simp only [keep, expired, Bool.not_eq_true', decide_eq_false_iff_not]
      omega
    rw [hunfold] at hle ⊢
    have hpair : sweepStep lt (ds, t) =
        ((sweepStep lt (ds, t)).1, (sweepStep lt (ds, t)).2) := rfl
    rw [hpair] at hle ⊢
    exact ih _ _ hkeep hle

theorem countP_filter_lt (p q : Device → Bool) (l : List Device) (a : Device)
    (hmem : a ∈ l) (hp : p a = true) (hq : q a = false) :
    (l.filter q).countP p < l.countP p := by
  induction l with
  | nil => cases hmem
  | cons b l ih =>
    rcases List.mem_cons.mp hmem with rfl | hmem2
    · rw [List.filter_cons, if_neg (by simp [hq]), List.countP_cons,
        if_pos hp]
      have hle : (l.filter q).countP p ≤ l.countP p :=
        (List.filter_sublist l).countP_le p
      omega
    · rw [List.filter_cons, List.countP_cons]
      by_cases hqb : q b = true
      · rw [if_pos hqb, List.countP_cons]
        have := ih hmem2
        split <;> omega
      · rw [if_neg hqb]
        have := ih hmem2
        split <;> omega

/-- older is the measure predicate of the liveness argument: entries whose
timestamp precedes that of the tracked entry `e`. -/
def older (e : Device) (d : Device) : Bool :=
  decide (d.added < e.added)

theorem sweepStep_progress (lt : Int) (e : Device) (hlt : 1 ≤ lt)
    (ds : List Device) (t : Int) (hmem : e ∈ ds)
    (ht : t ≤ e.added + lt + 1) :
    (sweepStep lt (ds, t)).2 ≤ e.added + lt + 1 ∧
    (e ∉ (sweepStep lt (ds, t)).1 ∨
      (e ∈ (sweepStep lt (ds, t)).1 ∧
        ((sweepStep lt (ds, t)).1.countP (older e) < ds.countP (older e) ∨
          ((sweepStep lt (ds, t)).1.countP (older e) ≤ ds.countP (older e) ∧
            t ≤ e.added - 1 ∧
            (sweepStep lt (ds, t)).2 = t + lt + 1)))) := by
  have hfe_le : firstEvent ds t ≤ e.added := firstEvent_le_added ds t e hmem
  have hstep1 : (sweepStep lt (ds, t)).1 =
      ds.filter (keep (max t (firstEvent ds t + lt + 1)) lt) := by
    show (removeExpired ds (max t (firstEvent ds t + lt + 1)) lt).1 = _
    rw [removeExpired_eq_filter]
  have hstep2 : (sweepStep lt (ds, t)).2 =
      max t (firstEvent ds t + lt + 1) := rfl
  constructor
  · rw [hstep2]
    refine max_le ht (by omega)
  · by_cases hexp : lt < max t (firstEvent ds t + lt + 1) - e.added
    · left
      intro hcontra
      rw [hstep1] at hcontra
      have hk := (List.mem_filter.mp hcontra).2
      simp only [keep, expired, Bool.not_eq_true',
        decide_eq_false_iff_not] at hk
      omega
    · right
      have hin : e ∈ (sweepStep lt (ds, t)).1 := by
        rw [hstep1]
        refine List.mem_filter.mpr ⟨hmem, ?_⟩
        simp only [keep, expired, Bool.not_eq_true',
          decide_eq_false_iff_not]
        omega
      refine ⟨hin, ?_⟩
      have hwake_le : firstEvent ds t + lt + 1 ≤ e.added + lt := by
        have := le_max_right t (firstEvent ds t + lt + 1)
        omega
      rcases firstEvent_cases ds t with hA1 | ⟨dstar, hdmem, hdeq⟩
      · right
        rw [hA1] at hwake_le
        refine ⟨?_, by omega, ?_⟩
        · rw [hstep1]
          exact (List.filter_sublist ds).countP_le (older e)
        · rw [hstep2, hA1]
          exact max_eq_right (by omega)
      · left
        rw [hstep1]
        rw [hdeq] at hwake_le
        have h1 : firstEvent ds t + lt + 1 ≤
            max t (firstEvent ds t + lt + 1) := le_max_right _ _
        have h2 : lt < max t (firstEvent ds t + lt + 1) - dstar.added := by
          rw [← hdeq]
          omega
        refine countP_filter_lt (older e) _ ds dstar hdmem ?_ ?_
        · simp only [older, decide_eq_true_eq]
          omega
        · simp only [keep, expired]
          simp [h2]

theorem sweep_eventually_removes_aux (lt : Int) (e : Device) (hlt : 1 ≤ lt) :
    ∀ (k : Nat) (ds : List Device) (t : Int),
      e ∈ ds →
      ds.countP (older e) + (e.added + 1 - t).toNat ≤ k →
      t ≤ e.added + lt + 1 →
      ∃ n, e ∉ (sweepIter lt (ds, t) n).1 ∧
        (sweepIter lt (ds, t) n).2 ≤ e.added + lt + 1 := by
  intro k
  induction k using Nat.strong_induction_on with
  | _ k ih =>
    intro ds t hmem hk ht
    obtain ⟨ht', hcase⟩ := sweepStep_progress lt e hlt ds t hmem ht
    rcases hcase with hout | ⟨hin, hrec⟩
    · exact ⟨1, hout, ht'⟩
    · have htmono : t ≤ (sweepStep lt (ds, t)).2 := le_max_left _ _
      have hmu : (sweepStep lt (ds, t)).1.countP (older e) +
          (e.added + 1 - (sweepStep lt (ds, t)).2).toNat <
          ds.countP (older e) + (e.added + 1 - t).toNat := by
        rcases hrec with hc | ⟨hc, ht1, ht2⟩ <;> omega
      obtain ⟨n, h1, h2⟩ :=
        ih ((sweepStep lt (ds, t)).1.countP (older e) +
            (e.added + 1 - (sweepStep lt (ds, t)).2).toNat)
          (by omega) (sweepStep lt (ds, t)).1 (sweepStep lt (ds, t)).2
          hin (le_refl _) ht'
      exact ⟨n + 1, h1, h2⟩

theorem sweepIter_post_sweep_age (lt : Int) :
    ∀ (n : Nat) (s : List Device × Int) (d : Device),
      d ∈ (sweepIter lt s (n + 1)).1 →
      (sweepIter lt s (n + 1)).2 - d.added ≤ lt := by
  intro n
  induction n with
  | zero =>
    intro s d hd
    have hd2 : d ∈
        (removeExpired s.1 (max s.2 (firstEvent s.1 s.2 + lt + 1)) lt).1 :=
      hd
    rw [removeExpired_eq_filter] at hd2
    have hk := (List.mem_filter.mp hd2).2
    simp only [keep, expired, Bool.not_eq_true',
      decide_eq_false_iff_not] at hk
    show max s.2 (firstEvent s.1 s.2 + lt + 1) - d.added ≤ lt
    omega
  | succ m ih =>
    intro s d hd
    exact ih (sweepStep lt s) d hd

/-- C6: in the timed model of the sweep loop, for an entry `e` in the store
whose current iteration starts no later than `e.added + lifetime + 1` and
which is never re-registered: (a) while the loop's time has not passed
`e.added + lifetime`, the entry is still present — so a query at
`e.added + lifetime - 1` sees it; (b) some iteration removes the entry at a
wake time no later than `e.added + lifetime + 1 < e.added + lifetime + 2`,
so a query at `e.added + lifetime + 2` no longer sees it; (c) right after
every sweep no surviving entry's age exceeds the lifetime, so no live entry
outlives the lifetime by more than one sweep's slack. -/
theorem sweep_expiry_bounds (lt t : Int) (ds : List Device) (e : Device)
    (hlt : 1 ≤ lt) (hmem : e ∈ ds) (ht : t ≤ e.added + lt + 1) :
    (∀ n, (sweepIter lt (ds, t) n).2 ≤ e.added + lt →
        e ∈ (sweepIter lt (ds, t) n).1) ∧
    (∃ n, e ∉ (sweepIter lt (ds, t) n).1 ∧
        (sweepIter lt (ds, t) n).2 ≤ e.added + lt + 1) ∧
    (∀ n d, d ∈ (sweepIter lt (ds, t) (n + 1)).1 →
        (sweepIter lt (ds, t) (n + 1)).2 - d.added ≤ lt) := by
  refine ⟨?_, ?_, ?_⟩
  · intro n h
    exact sweepIter_keeps_live lt e n ds t hmem h
  · exact sweep_eventually_removes_aux lt e hlt
      (ds.countP (older e) + (e.added + 1 - t).toNat) ds t hmem
      (le_refl _) ht
  · intro n d hd
    exact sweepIter_post_sweep_age lt n (ds, t) d hd

/-- Witness for C6: a single entry added at time 5 under lifetime 2,
watched by a sweep loop whose iteration starts at time 0. -/
theorem sweep_expiry_bounds_witness :
    (1 : Int) ≤ 2 ∧
    Device.mk "203.0.113.5" "10.0.0.9" 0 "printer" 5 ∈
      [Device.mk "203.0.113.5" "10.0.0.9" 0 "printer" 5] ∧
    (0 : Int) ≤ (Device.mk "203.0.113.5" "10.0.0.9" 0 "printer" 5).added +
      2 + 1 ∧
    ((∀ n,
        (sweepIter 2
          ([Device.mk "203.0.113.5" "10.0.0.9" 0 "printer" 5], 0) n).2 ≤
          (Device.mk "203.0.113.5" "10.0.0.9" 0 "printer" 5).added + 2 →
        Device.mk "203.0.113.5" "10.0.0.9" 0 "printer" 5 ∈
          (sweepIter 2
            ([Device.mk "203.0.113.5" "10.0.0.9" 0 "printer" 5], 0) n).1) ∧
      (∃ n,
        Device.mk "203.0.113.5" "10.0.0.9" 0 "printer" 5 ∉
          (sweepIter 2
            ([Device.mk "203.0.113.5" "10.0.0.9" 0 "printer" 5], 0) n).1 ∧
        (sweepIter 2
          ([Device.mk "203.0.113.5" "10.0.0.9" 0 "printer" 5], 0) n).2 ≤
          (Device.mk "203.0.113.5" "10.0.0.9" 0 "printer" 5).added + 2 + 1) ∧
      (∀ n d,
        d ∈ (sweepIter 2
          ([Device.mk "203.0.113.5" "10.0.0.9" 0 "printer" 5], 0) (n + 1)).1 →
        (sweepIter 2
          ([Device.mk "203.0.113.5" "10.0.0.9" 0 "printer" 5], 0)
            (n + 1)).2 - d.added ≤ 2)) := by
  refine ⟨by decide, by decide, by decide, ?_⟩
  exact sweep_expiry_bounds 2 0
    [Device.mk "203.0.113.5" "10.0.0.9" 0 "printer" 5]
    (Device.mk "203.0.113.5" "10.0.0.9" 0 "printer" 5)
    (by decide) (by decide) (by decide)

end Nupnp
